import Mathlib

/-!
Verification of the block-access layer of prometheus-tsdb-dump.

This file gives a shallow embedding, in Lean, of the core of the
prometheus-tsdb-dump program: the S3/local chunk readers and their chunk
record codec (pkg/chunkreader/s3.go), the lazy S3 byte slice
(pkg/chunkreader/s3index.go), the writer factory (pkg/writer/writer.go)
and the query/materialization loop of `run` (main.go).  Bytes are
modelled as natural numbers below 256, byte strings as `List Nat`,
`uint64`/`uint32` arithmetic as `Nat` with explicit `% 2 ^ 64` where Go
wraps, and fallible Go functions as `Except String`.  Theorems at the end
of the file settle the specification claims against these definitions.
-/

/-! ## Section 1: the lazy S3 byte slice (pkg/chunkreader/s3index.go) -/

/-- Model of `s3ByteSlice.Range` (s3index.go lines 54-74).  The method issues a
single `GetObject` request whose `Range` field is the inclusive byte-range
header `fmt.Sprintf("bytes=%d-%d", start, end-1)` (`start`, `end` are Go
`int`s, so `end-1` is formatted as a signed integer) and returns the body
bytes unchanged (`ioutil.ReadAll`).  The first component is the range header
handed to the backing transport; the second is the returned body, following
the inclusive-range transport semantics exercised by `TestS3ByteSliceRange`
(the mock returns `data[start:end+1]` for header `bytes=start-end`). -/
def s3ByteSliceRange (data : List Nat) (start stop : Nat) : String × List Nat :=
  ("bytes=" ++ toString (start : Int) ++ "-" ++ toString ((stop : Int) - 1),
   (data.drop start).take (stop - start))

/-! ## Section 2: chunk reference resolution (pkg/chunkreader/s3.go) -/

/-- Segment identifier used by `S3ChunkReader.Chunk`: Go `int(ref >> 32)` on a
`uint64` reference (s3.go line 36). -/
def s3SegmentOf (ref : Nat) : Nat := ref >>> 32

/-- In-segment byte offset used by `S3ChunkReader.Chunk`: Go
`int((ref << 32) >> 32)` with `uint64` wrap-around on the left shift
(s3.go line 37). -/
def s3OffsetOf (ref : Nat) : Nat := ((ref <<< 32) % 2 ^ 64) >>> 32

/-- Segment identifier used by `LocalChunkReader.Chunk` (s3.go line 106). -/
def localSegmentOf (ref : Nat) : Nat := ref >>> 32

/-- In-segment byte offset used by `LocalChunkReader.Chunk` (s3.go line 107). -/
def localOffsetOf (ref : Nat) : Nat := ((ref <<< 32) % 2 ^ 64) >>> 32

/-- Model of Go `fmt.Sprintf("%06d", n)` for a non-negative integer: the
decimal digits of `n`, left-padded with zeros to a minimum width of six
characters (wider numbers are not truncated). -/
def sprintf06 (n : Nat) : String :=
  let s := Nat.repr n
  if s.length < 6 then String.mk (List.replicate (6 - s.length) '0') ++ s else s

/-- Model of Go `path.Join` for already-clean, `..`-free components: empty
components are dropped and the rest are joined with a single slash. -/
def goPathJoin (parts : List String) : String :=
  String.intercalate "/" (parts.filter (fun s => s ≠ ""))

/-- Object key of the segment fetched by `S3ChunkReader.Chunk`:
`path.Join(r.prefix, "chunks", fmt.Sprintf("%06d", segment))` (s3.go line 38). -/
def s3ObjKey (pfx : String) (ref : Nat) : String :=
  goPathJoin [pfx, "chunks", sprintf06 (s3SegmentOf ref)]

/-- File path of the segment opened by `LocalChunkReader.Chunk`:
`path.Join(r.dir, fmt.Sprintf("%06d", segment))` (s3.go line 108); `main.go`
line 110 constructs `r.dir` as `path.Join(blockPath, "chunks")`. -/
def localFilePath (dir : String) (ref : Nat) : String :=
  goPathJoin [dir, sprintf06 (localSegmentOf ref)]

/-! ## Section 3: the query and materialization loop of run (main.go)

The index is an external collaborator (`tsdb.IndexReader`): it is modelled
as an abstract interface returning ordered postings lists and series data.
Sample values are Go `float64`s; `run` only classifies them (NaN / infinite)
and passes them through, so they are modelled as an inductive with an opaque
finite payload. -/

/-- Model of a Go float64 sample value as classified by run: NaN, one of the
two infinities, or an opaque finite value. -/
inductive F64 where
  | nan
  | posInf
  | negInf
  | fin (x : Int)
deriving DecidableEq, Repr

/-- Go `math.IsNaN(v)`. -/
def F64.isNaN : F64 → Bool
  | .nan => true
  | _ => false

/-- Go `math.IsInf(v, sign)`: positive infinity if `sign >= 0` matches, negative
infinity if `sign <= 0` matches. -/
def F64.isInf (v : F64) (sign : Int) : Bool :=
  match v with
  | .posInf => decide (0 ≤ sign)
  | .negInf => decide (sign ≤ 0)
  | _ => false

/-- Decoded chunk as seen through `chunk.Iterator(it)`: the samples the
iterator yields in order, and the value of `it.Err()` once `Next` returns
false. -/
structure ChunkData where
  samples : List (Int × F64)
  iterErr : Option String
deriving DecidableEq, Repr

/-- Chunk metadata entry (`chunks.Meta`) as filled in by `indexr.Series`;
`run` reads only the `ref` field. -/
structure ChunkMetaM where
  ref : Nat
  minTime : Int
  maxTime : Int
deriving DecidableEq, Repr

/-- Abstract model of the external `tsdb.IndexReader` collaborator:
`Postings(name, value)` returns an ordered series-reference list,
`Series(ref)` returns the label set and chunk metadata, and
`index.AllPostingsKey()` is the designated match-all sentinel pair. -/
structure IndexModel where
  postings : String → String → Except String (List Nat)
  series : Nat → Except String (List (String × String) × List ChunkMetaM)
  allKey : String
  allValue : String

/-- Arguments of one `wr.Write(&lset, timestamps, values)` sink call. -/
abbrev WriteCall := List (String × String) × List Int × List F64

/-- Outcome of run: normal return with the sink calls made (`nil` error is
`ok`), an error return, or a panic from calling `Write` on a nil `Writer`
interface. -/
inductive RunResult where
  | ok (writes : List WriteCall)
  | fail (e : String)
  | nilDeref
deriving DecidableEq, Repr

/-- Model of `writer.NewWriter` (pkg/writer/writer.go lines 33-39): a writer
for `"victoriametrics"`, and `(nil, error)` for every other format string. -/
def newWriter (format : String) : Option Unit × Option String :=
  if format = "victoriametrics" then (some (), none)
  else (none, some ("invalid format: " ++ format))

/-- State of a prometheus `index.Postings` iterator over an in-memory ordered
list: `cur` is the current element (`none` before the first `Next`/`Seek` and
after exhaustion), `rest` the elements not yet visited. -/
structure PIt where
  cur : Option Nat
  rest : List Nat
deriving DecidableEq, Repr

/-- Fresh, not-yet-started postings iterator over a list. -/
def PIt.fresh (l : List Nat) : PIt := ⟨none, l⟩

/-- Postings `Next()`: advance to the next element; `cur` becomes `none` on
exhaustion. -/
def PIt.next (it : PIt) : PIt := ⟨it.rest.head?, it.rest.tail⟩

/-- Postings `Seek(x)`: advance to the first element `>= x`, never moving
backwards; a no-op when the current element is already `>= x`. -/
def PIt.seek (it : PIt) (x : Nat) : PIt :=
  match it.cur with
  | some c =>
    if x ≤ c then it
    else ⟨(it.rest.dropWhile (fun y => y < x)).head?,
          (it.rest.dropWhile (fun y => y < x)).tail⟩
  | none => ⟨(it.rest.dropWhile (fun y => y < x)).head?,
             (it.rest.dropWhile (fun y => y < x)).tail⟩

/-- Model of `intersectPostings.doNext(id)` from the prometheus tsdb index
package (the two-iterator variant used by `index.Intersect(a, b)`): repeatedly
seek `b` to `id`, and when `b` lands past `id`, seek `a` to catch up, until
both sit on a common element or one side is exhausted.  Returns the emitted
element (if any) and the updated iterator states; `fuel` bounds the loop and
exceeds the worst-case number of iterations at every call site. -/
def doNextAB : Nat → PIt → PIt → Nat → Option Nat × PIt × PIt
  | _, a, b, 0 => (none, a, b)
  | i, a, b, fuel + 1 =>
    let b1 := b.seek i
    match b1.cur with
    | none => (none, a, b1)
    | some vb =>
      if vb = i then (some i, a, b1)
      else
        let a1 := a.seek vb
        match a1.cur with
        | none => (none, a1, b1)
        | some i1 =>
          if vb = i1 then (some i1, a1, b1)
          else doNextAB i1 a1 b1 fuel

/-- Drive an `index.Intersect(a, b)` iterator to exhaustion (the
`for postings.Next()` loop of run): each `Next()` advances `a` one step and
then runs `doNext(a.At())`.  Returns the emitted elements in order together
with the final states of both underlying iterators; the shared iterator `b`
keeps its consumed state across calls. -/
def drainAB : PIt → PIt → Nat → List Nat × PIt × PIt
  | a, b, 0 => ([], a, b)
  | a, b, fuel + 1 =>
    let a1 := a.next
    match a1.cur with
    | none => ([], a1, b)
    | some i =>
      match doNextAB i a1 b (a1.rest.length + b.rest.length + 2) with
      | (none, a2, b2) => ([], a2, b2)
      | (some c, a2, b2) =>
        let dr := drainAB a2 b2 fuel
        (c :: dr.1, dr.2.1, dr.2.2)

/-- Context threaded through the loops of run: the (possibly nil) writer, the
index, the chunk reader, the caller-supplied timestamp bounds and external
labels, and the effective label key. -/
structure RunCtx where
  wr : Option Unit
  idx : IndexModel
  chunkr : Nat → Except String ChunkData
  minTimestamp : Int
  maxTimestamp : Int
  externalLabels : List (String × String)
  labelKey : String

/-- Model of the sample iteration loop of run (main.go lines 160-174): walk
the decoded samples, skip NaN values, skip infinite values, skip timestamps
outside `[minTimestamp, maxTimestamp]`, and append the rest to the
`timestamps` and `values` slices. -/
def sampleLoop (minT maxT : Int) : List (Int × F64) → List Int → List F64 → List Int × List F64
  | [], ts, vs => (ts, vs)
  | (t, v) :: rest, ts, vs =>
    if v.isNaN then sampleLoop minT maxT rest ts vs
    else if v.isInf (-1) || v.isInf 1 then sampleLoop minT maxT rest ts vs
    else if t < minT || maxT < t then sampleLoop minT maxT rest ts vs
    else sampleLoop minT maxT rest (ts ++ [t]) (vs ++ [v])

/-- Predicate equivalent of the sample loop's retention condition: the value
is finite and the timestamp lies within the inclusive bounds. -/
def keepSample (minT maxT : Int) (s : Int × F64) : Bool :=
  !s.2.isNaN && !(s.2.isInf (-1) || s.2.isInf 1) &&
    decide (minT ≤ s.1) && decide (s.1 ≤ maxT)

/-- Result of an inner loop body of run: either the whole function returns
(`halt`) or the loop continues with the sink calls made so far. -/
inductive StepRes where
  | halt (r : RunResult)
  | cont (writes : List WriteCall)
deriving DecidableEq, Repr

/-- Model of the chunk loop of run (main.go lines 151-186): for each chunk
metadata entry, fetch the chunk, iterate and filter its samples, check
`it.Err()`, skip chunks left empty by the filter, and otherwise call the
writer.  Note main.go line 176 returns `pkgerrors.Wrap(err, "iterator.Err")`
where `err` is the error of the preceding `chunkr.Chunk` call — which is nil
on this path, and `pkgerrors.Wrap(nil, msg)` is nil. -/
def chunksLoop (ctx : RunCtx) (lset : List (String × String)) :
    List ChunkMetaM → List WriteCall → StepRes
  | [], writes => .cont writes
  | meta :: rest, writes =>
    match ctx.chunkr meta.ref with
    | .error e => .halt (.fail ("chunkr.Chunk: " ++ e))
    | .ok cd =>
      -- the Go variable `err` from `chunk, err := chunkr.Chunk(meta.Ref)` is nil here
      let chunkFetchErr : Option String := none
      let tsvs := sampleLoop ctx.minTimestamp ctx.maxTimestamp cd.samples [] []
      if cd.iterErr.isSome then
        .halt (match chunkFetchErr with
               | some e => .fail ("iterator.Err: " ++ e)
               | none => .ok writes)
      else if tsvs.1.isEmpty then chunksLoop ctx lset rest writes
      else
        match ctx.wr with
        | none => .halt .nilDeref
        | some _ => chunksLoop ctx lset rest (writes ++ [(lset, tsvs.1, tsvs.2)])

/-- Model of the series loop of run (main.go lines 140-150): for each matched
series reference, load its labels and chunk metadata, append the external
labels when non-empty, and process its chunks. -/
def seriesLoop (ctx : RunCtx) : List Nat → List WriteCall → StepRes
  | [], writes => .cont writes
  | ref :: rest, writes =>
    match ctx.idx.series ref with
    | .error e => .halt (.fail ("indexr.Series: " ++ e))
    | .ok sr =>
      let lset := if ctx.externalLabels.length > 0 then sr.1 ++ ctx.externalLabels else sr.1
      match chunksLoop ctx lset sr.2 writes with
      | .halt r => .halt r
      | .cont w => seriesLoop ctx rest w

/-- Model of the per-label-value loop of run (main.go lines 131-192): resolve
the postings of `(labelKey, val)`, intersect with the metric postings iterator
when one exists (the same iterator object is reused across values, retaining
its consumed state), process each emitted series, and check `postings.Err()`
(always nil for these in-memory postings). -/
def valuesLoop (ctx : RunCtx) : List String → Option PIt → List WriteCall → RunResult
  | [], _, writes => .ok writes
  | val :: rest, mstate, writes =>
    match ctx.idx.postings ctx.labelKey val with
    | .error e => .fail ("indexr.Postings: " ++ e)
    | .ok plist =>
      let step :=
        match mstate with
        | none => ((plist, mstate) : List Nat × Option PIt)
        | some mIt =>
          let dr := drainAB (PIt.fresh plist) mIt (plist.length + 1)
          ((dr.1, some dr.2.2) : List Nat × Option PIt)
      match seriesLoop ctx step.1 writes with
      | .halt r => r
      | .cont w => valuesLoop ctx rest step.2 w

/-- Model of run from the point where index and chunk readers are open
(main.go lines 114-194): substitute the match-all sentinel when `labelKey` is
empty, resolve the metric-name postings once when `metricName` is non-empty,
then run the per-value loop. -/
def runCore (wr : Option Unit) (idx : IndexModel) (chunkr : Nat → Except String ChunkData)
    (labelKey : String) (labelValues : List String) (metricName : String)
    (minT maxT : Int) (externalLabels : List (String × String)) : RunResult :=
  let eff := if labelKey = "" then (idx.allKey, [idx.allValue]) else (labelKey, labelValues)
  let ctx : RunCtx := ⟨wr, idx, chunkr, minT, maxT, externalLabels, eff.1⟩
  if metricName ≠ "" then
    match idx.postings "__name__" metricName with
    | .error e => .fail ("indexr.Postings metric: " ++ e)
    | .ok m => valuesLoop ctx eff.2 (some (PIt.fresh m)) []
  else valuesLoop ctx eff.2 none []

/-- Model of run including the writer construction (main.go line 90):
`wr, err := writer.NewWriter(outFormat, out)` whose error is overwritten by
the next statement before ever being checked, after which the index and chunk
readers are opened and the query loop runs with whatever writer value (possibly
nil) `NewWriter` returned. -/
def runFull (format : String) (idx : IndexModel) (chunkr : Nat → Except String ChunkData)
    (labelKey : String) (labelValues : List String) (metricName : String)
    (minT maxT : Int) (externalLabels : List (String × String)) : RunResult :=
  let wrRes := newWriter format
  runCore wrRes.1 idx chunkr labelKey labelValues metricName minT maxT externalLabels

/-! ## Section 4: concrete fixtures used to evaluate the run model -/

/-- Fixture for C1: one matched series whose first chunk's sample iterator
terminates with an error, and a healthy second chunk. -/
def idx1 : IndexModel :=
  ⟨fun _ _ => .ok [1],
   fun r => if r = 1 then .ok ([("__name__", "up")], [⟨7, 0, 0⟩, ⟨8, 0, 0⟩])
            else .error "series not found",
   "", ""⟩

/-- Chunk reader fixture for C1: chunk 7 decodes but its iterator ends with an
error; chunk 8 is healthy. -/
def chunkr1 : Nat → Except String ChunkData :=
  fun r =>
    if r = 7 then .ok ⟨[(100, F64.fin 1)], some "chunk iterator failed"⟩
    else if r = 8 then .ok ⟨[(200, F64.fin 2)], none⟩
    else .error "no such chunk"

/-- Fixture for C2: metric postings `[1, 2, 3, 10]`, label postings
`("k","a") -> [1, 3]` and `("k","b") -> [2, 5, 10]`; every series exists with
one healthy chunk whose sample carries the series reference as timestamp. -/
def idx2 : IndexModel :=
  ⟨fun k v =>
      if k = "__name__" then .ok [1, 2, 3, 10]
      else if v = "a" then .ok [1, 3]
      else .ok [2, 5, 10],
   fun r => .ok ([("r", Nat.repr r)], [⟨r, 0, 0⟩]),
   "", ""⟩

/-- Chunk reader fixture for C2. -/
def chunkr2 : Nat → Except String ChunkData :=
  fun r => .ok ⟨[((r : Int), F64.fin 1)], none⟩

/-- Expected sink call for series `r` under the C2 fixture. -/
def wc2 (r : Nat) : WriteCall := ([("r", Nat.repr r)], [(r : Int)], [F64.fin 1])

/-- Fixture chunk for C5: finite, NaN, +Inf, -Inf and out-of-range samples. -/
def cd5 : ChunkData :=
  ⟨[(1000, F64.fin 1), (2000, F64.nan), (2500, F64.posInf), (2600, F64.negInf),
    (3000, F64.fin 1), (5000, F64.fin 2)], none⟩

/-- Run context fixture for C5 with bounds `[0, 4000]`. -/
def ctx5 : RunCtx :=
  ⟨some (), ⟨fun _ _ => .ok [], fun _ => .error "unused", "", ""⟩,
   fun _ => .ok cd5, 0, 4000, [], "k"⟩

/-- Label set fixture for C5. -/
def lset5 : List (String × String) := [("__name__", "up")]

/-- Chunk metadata fixture for C5. -/
def meta5 : ChunkMetaM := ⟨7, 0, 0⟩

/-- Fixture for C10: one matched series with one healthy chunk whose samples
survive filtering, so that run reaches `wr.Write`. -/
def idx10 : IndexModel :=
  ⟨fun _ _ => .ok [1], fun _ => .ok ([("__name__", "up")], [⟨7, 0, 0⟩]), "", ""⟩

/-- Chunk reader fixture for C10. -/
def chunkr10 : Nat → Except String ChunkData :=
  fun _ => .ok ⟨[(100, F64.fin 1)], none⟩

/-! ## Section 5: the chunk record codec (pkg/chunkreader/s3.go)

Both readers share the record format
`[varint data_length][encoding byte][payload][4-byte CRC-32C]`.  The CRC is
the Go `hash/crc32` Castagnoli checksum; it is modelled here by the bit-level
reflected algorithm whose per-byte table form
`crc = tab[byte(crc) ^ b] ^ (crc >> 8)` is exactly Go's `simpleUpdate`. -/

/-- Constant `chunks.MaxChunkLengthFieldSize` (`binary.MaxVarintLen32`). -/
def maxChunkLengthFieldSize : Nat := 5

/-- Constant `chunks.ChunkEncodingSize`. -/
def chunkEncodingSize : Nat := 1

/-- Constant `crc32.Size`. -/
def crc32Size : Nat := 4

/-- CRC-32C (Castagnoli) polynomial in reversed bit order, as used by
`crc32.MakeTable(crc32.Castagnoli)`. -/
def crcPoly : Nat := 0x82F63B78

/-- One bit of the reflected CRC shift register. -/
def crcStep (c : Nat) : Nat := if c % 2 = 1 then (c / 2) ^^^ crcPoly else c / 2

/-- Eight register bits: `crc32.MakeTable(crc32.Castagnoli)[i] = crcStep8 i`. -/
def crcStep8 (c : Nat) : Nat :=
  crcStep (crcStep (crcStep (crcStep (crcStep (crcStep (crcStep (crcStep c)))))))

/-- One byte of Go `hash/crc32.simpleUpdate`:
`crc = tab[byte(crc) ^ b] ^ (crc >> 8)` on the inverted register. -/
def crc32cUpdate (crc b : Nat) : Nat :=
  crcStep8 ((crc % 256) ^^^ (b % 256)) ^^^ (crc >>> 8)

/-- The Castagnoli checksum of a byte string as computed by a fresh
`crc32.New(crc32.MakeTable(crc32.Castagnoli))` digest after one `Write`:
the register starts at `^0`, consumes every byte, and is inverted again. -/
def crc32c (data : List Nat) : Nat :=
  (data.foldl crc32cUpdate 0xFFFFFFFF) ^^^ 0xFFFFFFFF

/-- Big-endian bytes of a 32-bit checksum, as appended by `digest.Sum(nil)`. -/
def u32be (n : Nat) : List Nat :=
  [(n >>> 24) % 256, (n >>> 16) % 256, (n >>> 8) % 256, n % 256]

/-- Model of Go `encoding/binary.Uvarint` on `buf`: accumulator `x`, shift `s`
and byte index `i` mirror the loop variables; returns the decoded value and
the byte count, `0` when the buffer ends before a terminating byte and a
negative count on 64-bit overflow. -/
def uvarintLoop : List Nat → Nat → Nat → Nat → Nat × Int
  | [], _, _, _ => (0, 0)
  | b :: rest, x, s, i =>
    if i = 10 then (0, -(Int.ofNat i + 1))
    else if b < 128 then
      if i = 9 ∧ 1 < b then (0, -(Int.ofNat i + 1))
      else ((x ||| ((b <<< s) % 2 ^ 64)) % 2 ^ 64, Int.ofNat i + 1)
    else uvarintLoop rest ((x ||| (((b % 128) <<< s) % 2 ^ 64)) % 2 ^ 64) (s + 7) (i + 1)

/-- Go `binary.Uvarint(buf)`. -/
def goUvarint (buf : List Nat) : Nat × Int := uvarintLoop buf 0 0 0

/-- Unsigned varint encoding (Go `binary.PutUvarint`): little-endian base-128
groups, the high bit marking continuation. -/
def putUvarint (x : Nat) : List Nat :=
  if x < 128 then [x] else (x % 128 + 128) :: putUvarint (x / 128)
termination_by x
decreasing_by simp_wf; omega

/-- On-wire chunk record with an arbitrary stored trailing checksum field:
`[varint data_length][encoding byte][payload][sum4]`. -/
def rawRecord (enc : Nat) (payload sum4 : List Nat) : List Nat :=
  putUvarint payload.length ++ enc :: (payload ++ sum4)

/-- Well-formed on-wire chunk record: the stored checksum is the CRC-32C of
`[encoding byte, payload]` (spec section 3; the layout written by the
prometheus tsdb chunks writer). -/
def encodeRecord (enc : Nat) (payload : List Nat) : List Nat :=
  rawRecord enc payload (u32be (crc32c (enc :: payload)))

/-- Model of `LocalChunkReader.Chunk` (s3.go lines 105-143) acting on the
bytes of the resolved segment file: the positioned reads `(offset, length)`
issued through `ReadAt` paired with the decode result `(encoding, payload)`
handed to `chunkenc.FromData`.  `os.File.ReadAt` fails whenever fewer bytes
than requested are available. -/
def localChunkAt (file : List Nat) (offset : Nat) :
    List (Nat × Nat) × Except String (Nat × List Nat) :=
  if file.length < offset + maxChunkLengthFieldSize then
    ([(offset, maxChunkLengthFieldSize)], .error "ReadAt: EOF")
  else
    let header := (file.drop offset).take maxChunkLengthFieldSize
    let pr := goUvarint header
    if pr.2 ≤ 0 then ([(offset, maxChunkLengthFieldSize)], .error "invalid header")
    else
      let n := pr.2.toNat
      let total := n + chunkEncodingSize + pr.1 + crc32Size
      if file.length < offset + total then
        ([(offset, maxChunkLengthFieldSize), (offset, total)], .error "ReadAt: EOF")
      else
        let buf := (file.drop offset).take total
        let enc := buf.getD n 0
        let chkData := (buf.drop (n + chunkEncodingSize)).take pr.1
        let sum := (buf.drop (n + chunkEncodingSize + pr.1)).take crc32Size
        if u32be (crc32c ((buf.drop n).take (chunkEncodingSize + pr.1))) ≠ sum then
          ([(offset, maxChunkLengthFieldSize), (offset, total)], .error "checksum mismatch")
        else
          ([(offset, maxChunkLengthFieldSize), (offset, total)], .ok (enc, chkData))

/-- Model of one ranged S3 `GetObject` of `cnt` bytes starting at `start`
(inclusive range header `bytes=start-(start+cnt-1)`): S3 rejects a range
starting at or past the object end and otherwise returns the requested bytes
clamped at the object end. -/
def s3RangeFetch (file : List Nat) (start cnt : Nat) : Except String (List Nat) :=
  if file.length ≤ start then .error "InvalidRange"
  else .ok ((file.drop start).take cnt)

/-- Model of `S3ChunkReader.Chunk` (s3.go lines 35-92) acting on the bytes of
the resolved segment object: the requested ranges `(offset, length)` paired
with the decode result `(encoding, payload)`. -/
def s3ChunkAt (file : List Nat) (offset : Nat) :
    List (Nat × Nat) × Except String (Nat × List Nat) :=
  let headerCnt := maxChunkLengthFieldSize + chunkEncodingSize
  match s3RangeFetch file offset headerCnt with
  | .error e => ([(offset, headerCnt)], .error e)
  | .ok header =>
    if header.length < maxChunkLengthFieldSize then
      ([(offset, headerCnt)], .error "short header")
    else
      let pr := goUvarint header
      if pr.2 ≤ 0 then ([(offset, headerCnt)], .error "invalid header")
      else
        let n := pr.2.toNat
        let total := n + chunkEncodingSize + pr.1 + crc32Size
        match s3RangeFetch file offset total with
        | .error e => ([(offset, headerCnt), (offset, total)], .error e)
        | .ok data =>
          if data.length < total then
            ([(offset, headerCnt), (offset, total)], .error "short chunk data")
          else
            let enc := data.getD n 0
            let chkDataEnd := n + chunkEncodingSize + pr.1
            if chkDataEnd + crc32Size > data.length then
              ([(offset, headerCnt), (offset, total)], .error "invalid chunk length")
            else
              let sum := (data.drop chkDataEnd).take crc32Size
              if u32be (crc32c ((data.drop n).take (chunkEncodingSize + pr.1))) ≠ sum then
                ([(offset, headerCnt), (offset, total)], .error "checksum mismatch")
              else
                ([(offset, headerCnt), (offset, total)],
                 .ok (enc, (data.drop (n + chunkEncodingSize)).take pr.1))

/-- Fixture segment file for C4: two leading junk bytes, the record for
encoding 1 with payload `[7, 8]`, one trailing byte. -/
def file4 : List Nat := [9, 9] ++ encodeRecord 1 [7, 8] ++ [5]

/-- Fixture for C9: a malformed segment whose five (and six) bytes at offset 1
all carry the varint continuation bit. -/
def file9 : List Nat := [0, 255, 255, 255, 255, 255, 255]

/-! ## Theorems for claims C6 and C7 -/

/-- Claim C6: for every `0 <= start <= end <= Len()`, the remote byte source's
`Range(start, end)` returns exactly `end - start` bytes equal to the slice
`[start, end)` of the full object, and the single request it issues carries
the inclusive byte-range header `bytes=start-(end-1)` with the literal
numbers. -/
theorem c6_range_exactness (data : List Nat) (start stop : Nat)
    (h1 : start ≤ stop) (h2 : stop ≤ data.length) :
    ((s3ByteSliceRange data start stop).2).length = stop - start ∧
    (s3ByteSliceRange data start stop).2 = (data.take stop).drop start ∧
    (s3ByteSliceRange data start stop).1 =
      "bytes=" ++ toString (start : Int) ++ "-" ++ toString ((stop : Int) - 1) := by
  refine ⟨?_, ?_, rfl⟩
  · simp only [s3ByteSliceRange, List.length_take, List.length_drop]
    omega
  · simp only [s3ByteSliceRange, List.drop_take]

/-- Witness for C6 at the concrete input of `TestS3ByteSliceRange`: a
26-byte object, `Range(3, 8)`. -/
theorem c6_range_exactness_witness :
    ((s3ByteSliceRange (List.range 26) 3 8).2).length = 8 - 3 ∧
    (s3ByteSliceRange (List.range 26) 3 8).2 = ((List.range 26).take 8).drop 3 ∧
    (s3ByteSliceRange (List.range 26) 3 8).1 =
      "bytes=" ++ toString (3 : Int) ++ "-" ++ toString ((8 : Int) - 1) :=
  c6_range_exactness (List.range 26) 3 8 (by decide) (by decide)

/-- Claim C7: both chunk readers resolve a 64-bit chunk reference identically:
the segment identifier is the upper 32 bits, the in-segment byte offset is the
lower 32 bits, and the segment is addressed by the zero-padded 6-digit decimal
name of the segment identifier under the chunks directory/prefix. -/
theorem c7_ref_resolution (ref : Nat) (pfx dir : String) :
    s3SegmentOf ref = ref / 2 ^ 32 ∧
    localSegmentOf ref = ref / 2 ^ 32 ∧
    s3OffsetOf ref = ref % 2 ^ 32 ∧
    localOffsetOf ref = ref % 2 ^ 32 ∧
    s3ObjKey pfx ref = goPathJoin [pfx, "chunks", sprintf06 (ref / 2 ^ 32)] ∧
    localFilePath dir ref = goPathJoin [dir, sprintf06 (ref / 2 ^ 32)] ∧
    (ref / 2 ^ 32 < 10 ^ 6 → (sprintf06 (ref / 2 ^ 32)).length = 6) := by
  have hseg : s3SegmentOf ref = ref / 2 ^ 32 := by
    simp [s3SegmentOf, Nat.shiftRight_eq_div_pow]
  have hoff : s3OffsetOf ref = ref % 2 ^ 32 := by
    simp only [s3OffsetOf, Nat.shiftLeft_eq, Nat.shiftRight_eq_div_pow]
    omega
  refine ⟨hseg, hseg, hoff, hoff, ?_, ?_, ?_⟩
  · simp [s3ObjKey, hseg]
  · simp [localFilePath, localSegmentOf, Nat.shiftRight_eq_div_pow]
  · intro h
    have hlen : (Nat.repr (ref / 2 ^ 32)).length ≤ 6 :=
      Nat.repr_length _ 6 (by norm_num) h
    simp only [sprintf06]
    split
    · simp only [String.length_append]
      rw [show (String.mk (List.replicate (6 - (Nat.repr (ref / 2 ^ 32)).length) '0')).length
            = (List.replicate (6 - (Nat.repr (ref / 2 ^ 32)).length) '0').length from rfl,
        List.length_replicate]
      omega
    · omega

/-! ## Theorems for the run loop: claims C1, C2, C5, C8, C10 -/

/-- Helper: the sample loop of run computes exactly the order-preserving
filter of the decoded samples by `keepSample`, appended to the accumulators. -/
theorem sampleLoop_eq_filter (minT maxT : Int) (samples : List (Int × F64))
    (ts : List Int) (vs : List F64) :
    sampleLoop minT maxT samples ts vs =
      (ts ++ (samples.filter (keepSample minT maxT)).map Prod.fst,
       vs ++ (samples.filter (keepSample minT maxT)).map Prod.snd) := by
  induction samples generalizing ts vs with
  | nil => simp [sampleLoop]
  | cons s rest ih =>
    obtain ⟨t, v⟩ := s
    by_cases h1 : v.isNaN
    · have hk : keepSample minT maxT (t, v) = false := by simp [keepSample, h1]
      simp [sampleLoop, h1, hk, ih]
    · by_cases h2 : (v.isInf (-1) || v.isInf 1) = true
      · have hk : keepSample minT maxT (t, v) = false := by simp [keepSample, h2]
        simp [sampleLoop, h1, h2, hk, ih]
      · by_cases h3 : t < minT ∨ maxT < t
        · have hk : keepSample minT maxT (t, v) = false := by
            simp only [keepSample, h1, h2, Bool.not_false, Bool.true_and,
              Bool.and_eq_false_iff, decide_eq_false_iff_not]
            omega
          have hc : (decide (t < minT) || decide (maxT < t)) = true := by
            rcases h3 with h3 | h3 <;> simp [h3]
          simp [sampleLoop, h1, h2, hc, hk, ih]
        · have hk : keepSample minT maxT (t, v) = true := by
            simp only [keepSample, h1, h2, Bool.not_false, Bool.true_and,
              Bool.and_eq_true, decide_eq_true_eq]
            omega
          have hc : (decide (t < minT) || decide (maxT < t)) = false := by
            simp only [Bool.or_eq_false_iff, decide_eq_false_iff_not]
            omega
          simp [sampleLoop, h1, h2, hc, hk, ih]

/-- Claim C5: for every decoded sample stream and caller-supplied bounds, the
materialized output for a chunk is exactly the finite samples with timestamps
in the inclusive range, in original relative order; a chunk left with zero
samples is skipped without calling the writer. -/
theorem c5_sample_filtering (ctx : RunCtx) (lset : List (String × String))
    (meta : ChunkMetaM) (writes : List WriteCall) (cd : ChunkData)
    (h0 : ctx.wr = some ()) (h1 : ctx.chunkr meta.ref = .ok cd)
    (h2 : cd.iterErr = none) :
    chunksLoop ctx lset [meta] writes =
      .cont (if cd.samples.filter (keepSample ctx.minTimestamp ctx.maxTimestamp) = []
             then writes
             else writes ++ [(lset,
               (cd.samples.filter (keepSample ctx.minTimestamp ctx.maxTimestamp)).map Prod.fst,
               (cd.samples.filter (keepSample ctx.minTimestamp ctx.maxTimestamp)).map Prod.snd)]) := by
  rw [show chunksLoop ctx lset [meta] writes =
    (match ctx.chunkr meta.ref with
     | .error e => .halt (.fail ("chunkr.Chunk: " ++ e))
     | .ok cd =>
       let chunkFetchErr : Option String := none
       let tsvs := sampleLoop ctx.minTimestamp ctx.maxTimestamp cd.samples [] []
       if cd.iterErr.isSome then
         .halt (match chunkFetchErr with
                | some e => .fail ("iterator.Err: " ++ e)
                | none => .ok writes)
       else if tsvs.1.isEmpty then chunksLoop ctx lset [] writes
       else
         match ctx.wr with
         | none => .halt .nilDeref
         | some _ => chunksLoop ctx lset [] (writes ++ [(lset, tsvs.1, tsvs.2)]))
    from rfl]
  rw [h1]
  simp only [h2, Option.isSome_none, Bool.false_eq_true, if_false,
    sampleLoop_eq_filter, List.nil_append, h0, chunksLoop]
  by_cases he : cd.samples.filter (keepSample ctx.minTimestamp ctx.maxTimestamp) = []
  · simp [he]
  · have : ((cd.samples.filter (keepSample ctx.minTimestamp ctx.maxTimestamp)).map Prod.fst).isEmpty = false := by
      simp [List.isEmpty_iff, he]
    simp [this, he]

/-- Witness for C5 at the concrete fixture: samples
`[(1000,1), (2000,NaN), (2500,+Inf), (2600,-Inf), (3000,1), (5000,2)]` with
bounds `[0, 4000]` yield one sink call with timestamps `[1000, 3000]`. -/
theorem c5_sample_filtering_witness :
    chunksLoop ctx5 lset5 [meta5] [] =
      .cont [(lset5, [1000, 3000], [F64.fin 1, F64.fin 1])] := by
  have h := c5_sample_filtering ctx5 lset5 meta5 [] cd5 rfl rfl rfl
  rw [h]
  rfl

/-- Claim C8: a run with empty labelKey behaves identically to a run with the
IndexSource's match-all sentinel key and the one-element list of the sentinel
value. -/
theorem c8_empty_labelkey_fallback (wr : Option Unit) (idx : IndexModel)
    (chunkr : Nat → Except String ChunkData) (labelValues : List String)
    (metricName : String) (minT maxT : Int) (ext : List (String × String)) :
    runCore wr idx chunkr "" labelValues metricName minT maxT ext =
      runCore wr idx chunkr idx.allKey [idx.allValue] metricName minT maxT ext := by
  unfold runCore
  by_cases h : idx.allKey = "" <;> simp [h]

/-- Claim C1 (code bug, demonstrated): when a chunk's sample iterator ends
with an error, run stops materializing but returns success: main.go line 176
wraps the nil chunk-fetch error instead of `it.Err()`, and
`pkgerrors.Wrap(nil, msg)` is nil.  On the fixture, the iterator error of
chunk 7 is present, yet run returns `ok` with no writes and the healthy
chunk 8 is never emitted. -/
theorem c1_iterator_error_swallowed :
    runCore (some ()) idx1 chunkr1 "k" ["v"] "" 0 9999 [] = .ok [] ∧
    chunkr1 7 = .ok ⟨[(100, F64.fin 1)], some "chunk iterator failed"⟩ := by
  exact ⟨rfl, rfl⟩

/-- Claim C2 (code bug, demonstrated): the metric postings iterator is created
once and reused across label values, so the second value's emission is the
intersection with the already-consumed iterator, not with the metric postings.
On the fixture, value `"a"` emits `[1, 3]`; value `"b"` should emit the set
intersection `[2, 10]` of its postings `[2, 5, 10]` with the metric postings
`[1, 2, 3, 10]`, but the code emits only `[10]`: series 2 is dropped. -/
theorem c2_metric_intersection_not_per_value :
    runCore (some ()) idx2 chunkr2 "k" ["a", "b"] "m" 0 1000 [] =
      .ok [wc2 1, wc2 3, wc2 10] ∧
    idx2.postings "k" "b" = .ok [2, 5, 10] ∧
    idx2.postings "__name__" "m" = .ok [1, 2, 3, 10] ∧
    ([2, 5, 10] : List Nat).filter (fun r => ([1, 2, 3, 10] : List Nat).contains r)
      = [2, 10] := by
  refine ⟨rfl, rfl, rfl, by decide⟩

/-- Claim C10: the error of `writer.NewWriter` is overwritten unchecked; for
every format other than "victoriametrics", `NewWriter` returns a nil writer
with an error, run proceeds to the query loop anyway, and the first `Write`
on a chunk with surviving samples dereferences the nil writer interface. -/
theorem c10_invalid_format_nil_writer (format : String)
    (h : format ≠ "victoriametrics") :
    (newWriter format).1 = none ∧
    (newWriter format).2 = some ("invalid format: " ++ format) ∧
    runFull format idx10 chunkr10 "k" ["v"] "" 0 9999 [] = .nilDeref := by
  have h1 : newWriter format = (none, some ("invalid format: " ++ format)) := by
    simp [newWriter, h]
  refine ⟨by rw [h1], by rw [h1], ?_⟩
  show runCore (newWriter format).1 idx10 chunkr10 "k" ["v"] "" 0 9999 [] = .nilDeref
  rw [h1]
  rfl

/-- Witness for C10 with the concrete format string "csv". -/
theorem c10_invalid_format_nil_writer_witness :
    (newWriter "csv").1 = none ∧
    (newWriter "csv").2 = some ("invalid format: " ++ "csv") ∧
    runFull "csv" idx10 chunkr10 "k" ["v"] "" 0 9999 [] = .nilDeref :=
  c10_invalid_format_nil_writer "csv" (by decide)

/-! ## Helper lemmas: bitwise arithmetic and the CRC-32C register -/

/-- Helper: xor commutes with truncation to low bits. -/
theorem xor_mod_two_pow (a b k : Nat) : (a ^^^ b) % 2 ^ k = a % 2 ^ k ^^^ b % 2 ^ k := by
  apply Nat.eq_of_testBit_eq
  intro i
  simp only [Nat.testBit_mod_two_pow, Nat.testBit_xor]
  by_cases h : i < k <;> simp [h]

/-- Helper: xor commutes with right shift. -/
theorem xor_shiftRight (a b k : Nat) : (a ^^^ b) >>> k = a >>> k ^^^ b >>> k := by
  apply Nat.eq_of_testBit_eq
  intro i
  simp [Nat.testBit_shiftRight, Nat.testBit_xor]

/-- Helper: a number is the xor of its low byte and its shifted high bits. -/
theorem mod_xor_shiftLeft_decomp (x : Nat) : x % 256 ^^^ (x >>> 8) <<< 8 = x := by
  apply Nat.eq_of_testBit_eq
  intro i
  rw [show (256 : Nat) = 2 ^ 8 from rfl]
  simp only [Nat.testBit_xor, Nat.testBit_mod_two_pow, Nat.testBit_shiftLeft,
    Nat.testBit_shiftRight, ge_iff_le]
  by_cases h : i < 8
  · have h2 : ¬(8 ≤ i) := by omega
    simp [h, h2]
  · have h2 : 8 ≤ i := by omega
    have h3 : 8 + (i - 8) = i := by omega
    simp [h, h2, h3]

/-- Helper: the CRC bit step stays inside 32 bits. -/
theorem crcStep_lt (c : Nat) (h : c < 2 ^ 32) : crcStep c < 2 ^ 32 := by
  unfold crcStep
  split
  · exact Nat.xor_lt_two_pow (by omega) (by decide)
  · omega

/-- Helper: xor with the CRC polynomial sets the top register bit. -/
theorem xor_crcPoly_ge (x : Nat) (h : x < 2 ^ 31) : 2 ^ 31 ≤ x ^^^ crcPoly := by
  by_contra hlt
  push_neg at hlt
  have h1 : (x ^^^ crcPoly).testBit 31 = false := Nat.testBit_lt_two_pow hlt
  rw [Nat.testBit_xor, Nat.testBit_lt_two_pow h,
    (by decide : crcPoly.testBit 31 = true)] at h1
  simp at h1

/-- Helper: the CRC bit step is injective on 32-bit values. -/
theorem crcStep_inj (a b : Nat) (ha : a < 2 ^ 32) (hb : b < 2 ^ 32)
    (h : crcStep a = crcStep b) : a = b := by
  unfold crcStep at h
  by_cases pa : a % 2 = 1 <;> by_cases pb : b % 2 = 1
  · rw [if_pos pa, if_pos pb] at h
    have h2 := congrArg (· ^^^ crcPoly) h
    simp only [Nat.xor_cancel_right] at h2
    omega
  · rw [if_pos pa, if_neg pb] at h
    have hga : 2 ^ 31 ≤ a / 2 ^^^ crcPoly := xor_crcPoly_ge _ (by omega)
    omega
  · rw [if_neg pa, if_pos pb] at h
    have hgb : 2 ^ 31 ≤ b / 2 ^^^ crcPoly := xor_crcPoly_ge _ (by omega)
    omega
  · rw [if_neg pa, if_neg pb] at h
    omega

/-- Helper: eight CRC bit steps stay inside 32 bits. -/
theorem crcStep8_lt (c : Nat) (h : c < 2 ^ 32) : crcStep8 c < 2 ^ 32 := by
  unfold crcStep8
  iterate 8 apply crcStep_lt
  exact h

/-- Helper: eight CRC bit steps are injective on 32-bit values. -/
theorem crcStep8_inj (a b : Nat) (ha : a < 2 ^ 32) (hb : b < 2 ^ 32)
    (h : crcStep8 a = crcStep8 b) : a = b := by
  have B := crcStep_lt
  unfold crcStep8 at h
  have h1 := crcStep_inj _ _
    (B _ (B _ (B _ (B _ (B _ (B _ (B _ ha))))))) (B _ (B _ (B _ (B _ (B _ (B _ (B _ hb))))))) h
  have h2 := crcStep_inj _ _
    (B _ (B _ (B _ (B _ (B _ (B _ ha)))))) (B _ (B _ (B _ (B _ (B _ (B _ hb)))))) h1
  have h3 := crcStep_inj _ _
    (B _ (B _ (B _ (B _ (B _ ha))))) (B _ (B _ (B _ (B _ (B _ hb))))) h2
  have h4 := crcStep_inj _ _
    (B _ (B _ (B _ (B _ ha)))) (B _ (B _ (B _ (B _ hb)))) h3
  have h5 := crcStep_inj _ _ (B _ (B _ (B _ ha))) (B _ (B _ (B _ hb))) h4
  have h6 := crcStep_inj _ _ (B _ (B _ ha)) (B _ (B _ hb)) h5
  have h7 := crcStep_inj _ _ (B _ ha) (B _ hb) h6
  exact crcStep_inj _ _ ha hb h7

/-- Helper: xor of the low bits. -/
theorem xor_mod_two (a b : Nat) : (a ^^^ b) % 2 = a % 2 ^^^ b % 2 := by
  simpa using xor_mod_two_pow a b 1

/-- Helper: xor commutes with halving. -/
theorem xor_div_two (a b : Nat) : (a ^^^ b) / 2 = a / 2 ^^^ b / 2 := by
  simpa [Nat.shiftRight_eq_div_pow] using xor_shiftRight a b 1

/-- Helper: the CRC bit step is linear over xor. -/
theorem crcStep_xor (a b : Nat) : crcStep (a ^^^ b) = crcStep a ^^^ crcStep b := by
  unfold crcStep
  have hm := xor_mod_two a b
  have hd := xor_div_two a b
  have ha2 : a % 2 = 0 ∨ a % 2 = 1 := by omega
  have hb2 : b % 2 = 0 ∨ b % 2 = 1 := by omega
  rcases ha2 with ha2 | ha2 <;> rcases hb2 with hb2 | hb2 <;>
    rw [ha2, hb2] at hm <;> simp only [Nat.xor_self, Nat.xor_zero, Nat.zero_xor] at hm
  · rw [if_neg (by omega), if_neg (by omega), if_neg (by omega), hd]
  · rw [if_pos hm, if_neg (by omega), if_pos hb2, hd, Nat.xor_assoc]
  · rw [if_pos hm, if_pos ha2, if_neg (by omega), hd, Nat.xor_assoc, Nat.xor_assoc,
      Nat.xor_comm (b / 2) crcPoly]
  · rw [if_neg (by omega), if_pos ha2, if_pos hb2, hd]
    rw [Nat.xor_assoc, Nat.xor_comm crcPoly (b / 2 ^^^ crcPoly), Nat.xor_assoc,
      Nat.xor_self, Nat.xor_zero]

/-- Helper: eight CRC bit steps are linear over xor. -/
theorem crcStep8_xor (a b : Nat) : crcStep8 (a ^^^ b) = crcStep8 a ^^^ crcStep8 b := by
  simp [crcStep8, crcStep_xor]

/-- Helper: the CRC bit step halves an even register. -/
theorem crcStep_double (y : Nat) : crcStep (2 * y) = y := by
  unfold crcStep
  rw [if_neg (by omega)]
  omega

/-- Helper: eight CRC bit steps shift a byte-aligned register down by a byte. -/
theorem crcStep8_mul256 (y : Nat) : crcStep8 (256 * y) = y := by
  have e : (256 : Nat) * y = 2 * (2 * (2 * (2 * (2 * (2 * (2 * (2 * y))))))) := by ring
  rw [e]
  simp [crcStep8, crcStep_double]

/-- Helper: the table form of the byte update equals eight bit steps of the
xored register; this is the standard equivalence behind Go's `simpleUpdate`. -/
theorem crc32cUpdate_eq (crc b : Nat) (hb : b < 256) :
    crc32cUpdate crc b = crcStep8 (crc ^^^ b) := by
  unfold crc32cUpdate
  have hmod : crc % 256 ^^^ b % 256 = (crc ^^^ b) % 256 := by
    rw [show (256 : Nat) = 2 ^ 8 from rfl, ← xor_mod_two_pow]
  have hshift : crc >>> 8 = (crc ^^^ b) >>> 8 := by
    rw [xor_shiftRight]
    have hz : b >>> 8 = 0 := by
      rw [Nat.shiftRight_eq_div_pow]
      omega
    rw [hz, Nat.xor_zero]
  rw [hmod, hshift]
  have hshl : crcStep8 (((crc ^^^ b) >>> 8) <<< 8) = (crc ^^^ b) >>> 8 := by
    rw [Nat.shiftLeft_eq, show (2 : Nat) ^ 8 = 256 from rfl, Nat.mul_comm, crcStep8_mul256]
  calc crcStep8 ((crc ^^^ b) % 256) ^^^ (crc ^^^ b) >>> 8
      = crcStep8 ((crc ^^^ b) % 256) ^^^ crcStep8 (((crc ^^^ b) >>> 8) <<< 8) := by rw [hshl]
    _ = crcStep8 ((crc ^^^ b) % 256 ^^^ ((crc ^^^ b) >>> 8) <<< 8) := (crcStep8_xor _ _).symm
    _ = crcStep8 (crc ^^^ b) := by rw [mod_xor_shiftLeft_decomp]

/-- Helper: the byte update stays inside 32 bits. -/
theorem crc32cUpdate_lt (crc b : Nat) (h : crc < 2 ^ 32) : crc32cUpdate crc b < 2 ^ 32 := by
  unfold crc32cUpdate
  apply Nat.xor_lt_two_pow
  · apply crcStep8_lt
    have h1 : crc % 256 < 2 ^ 8 := by omega
    have h2 : b % 256 < 2 ^ 8 := by omega
    have h3 := Nat.xor_lt_two_pow h1 h2
    omega
  · rw [Nat.shiftRight_eq_div_pow]
    omega

/-- Helper: folding the byte update stays inside 32 bits. -/
theorem foldl_crc32cUpdate_lt (l : List Nat) (crc : Nat) (h : crc < 2 ^ 32) :
    l.foldl crc32cUpdate crc < 2 ^ 32 := by
  induction l generalizing crc with
  | nil => simpa
  | cons b t ih => exact ih _ (crc32cUpdate_lt _ _ h)

/-- Helper: folding the byte update over a byte string is injective in the
initial register. -/
theorem foldl_crc32cUpdate_ne (l : List Nat) (c1 c2 : Nat) (h1 : c1 < 2 ^ 32)
    (h2 : c2 < 2 ^ 32) (hl : ∀ b ∈ l, b < 256) (hne : c1 ≠ c2) :
    l.foldl crc32cUpdate c1 ≠ l.foldl crc32cUpdate c2 := by
  induction l generalizing c1 c2 with
  | nil => simpa
  | cons b t ih =>
    simp only [List.foldl_cons]
    have hb : b < 256 := hl b (by simp)
    apply ih (crc32cUpdate c1 b) (crc32cUpdate c2 b) (crc32cUpdate_lt _ _ h1)
      (crc32cUpdate_lt _ _ h2) (fun x hx => hl x (by simp [hx]))
    intro he
    apply hne
    rw [crc32cUpdate_eq _ _ hb, crc32cUpdate_eq _ _ hb] at he
    have h3 := crcStep8_inj _ _ (Nat.xor_lt_two_pow h1 (by omega))
      (Nat.xor_lt_two_pow h2 (by omega)) he
    have h4 := congrArg (· ^^^ b) h3
    simpa [Nat.xor_cancel_right] using h4

/-- Helper: the Castagnoli checksum is a 32-bit value. -/
theorem crc32c_lt (l : List Nat) : crc32c l < 2 ^ 32 :=
  Nat.xor_lt_two_pow (foldl_crc32cUpdate_lt _ _ (by norm_num)) (by norm_num)

/-- Helper: changing a single byte of the input changes the Castagnoli
checksum. -/
theorem crc32c_ne_of_byte_ne (p s : List Nat) (x y : Nat) (hs : ∀ b ∈ s, b < 256)
    (hx : x < 256) (hy : y < 256) (hxy : x ≠ y) :
    crc32c (p ++ x :: s) ≠ crc32c (p ++ y :: s) := by
  unfold crc32c
  intro h
  have h2 : (p ++ x :: s).foldl crc32cUpdate 0xFFFFFFFF
      = (p ++ y :: s).foldl crc32cUpdate 0xFFFFFFFF := by
    have h3 := congrArg (· ^^^ 0xFFFFFFFF) h
    simpa [Nat.xor_cancel_right] using h3
  rw [List.foldl_append, List.foldl_append, List.foldl_cons, List.foldl_cons] at h2
  have hcl : p.foldl crc32cUpdate 0xFFFFFFFF < 2 ^ 32 :=
    foldl_crc32cUpdate_lt _ _ (by norm_num)
  refine foldl_crc32cUpdate_ne s _ _ (crc32cUpdate_lt _ _ hcl) (crc32cUpdate_lt _ _ hcl)
    hs ?_ h2
  intro he
  rw [crc32cUpdate_eq _ _ hx, crc32cUpdate_eq _ _ hy] at he
  have h3 := crcStep8_inj _ _ (Nat.xor_lt_two_pow hcl (by omega))
    (Nat.xor_lt_two_pow hcl (by omega)) he
  have h4 := congrArg (fun z => p.foldl crc32cUpdate 0xFFFFFFFF ^^^ z) h3
  simp only [Nat.xor_cancel_left] at h4
  exact hxy h4

/-- Helper: the big-endian checksum bytes determine the 32-bit value. -/
theorem u32be_inj (a b : Nat) (ha : a < 2 ^ 32) (hb : b < 2 ^ 32)
    (h : u32be a = u32be b) : a = b := by
  simp only [u32be, Nat.shiftRight_eq_div_pow, List.cons.injEq, and_true] at h
  omega

/-! ## Helper lemmas: varint encoding and parsing -/

/-- Helper: a disjoint or is an addition. -/
theorem or_mul_pow_eq_add (a b k : Nat) (h : a < 2 ^ k) :
    a ||| b * 2 ^ k = a + b * 2 ^ k := by
  rw [Nat.mul_comm b, Nat.lor_comm, ← Nat.mul_add_lt_is_or h b]
  exact Nat.add_comm _ _

/-- Helper: every byte emitted by the varint encoder is a byte. -/
theorem putUvarint_bytes (x : Nat) : ∀ b ∈ putUvarint x, b < 256 := by
  induction x using Nat.strong_induction_on with
  | _ x ih =>
    by_cases h : x < 128
    · rw [putUvarint, if_pos h]
      intro b hb
      simp only [List.mem_singleton] at hb
      omega
    · rw [putUvarint, if_neg h]
      intro b hb
      rcases List.mem_cons.mp hb with hb | hb
      · omega
      · exact ih (x / 128) (by omega) b hb

/-- Helper: the varint encoding is nonempty. -/
theorem putUvarint_length_pos (x : Nat) : 1 ≤ (putUvarint x).length := by
  rw [putUvarint]
  split <;> simp

/-- Helper: the encoded value is bounded by the number of 7-bit groups. -/
theorem putUvarint_lt (x : Nat) : x < 2 ^ (7 * (putUvarint x).length) := by
  induction x using Nat.strong_induction_on with
  | _ x ih =>
    by_cases h : x < 128
    · rw [putUvarint, if_pos h]
      simpa using h
    · rw [putUvarint, if_neg h]
      have ihx := ih (x / 128) (by omega)
      simp only [List.length_cons]
      have he : 2 ^ (7 * ((putUvarint (x / 128)).length + 1))
          = 2 ^ (7 * (putUvarint (x / 128)).length) * 128 := by
        rw [Nat.mul_add, Nat.pow_add]
      rw [he]
      have h3 : x < 128 * (x / 128 + 1) := by omega
      calc x < 128 * (x / 128 + 1) := h3
        _ ≤ 128 * 2 ^ (7 * (putUvarint (x / 128)).length) :=
            Nat.mul_le_mul_left _ ihx
        _ = 2 ^ (7 * (putUvarint (x / 128)).length) * 128 := Nat.mul_comm _ _

/-- Helper: a value below `2 ^ (7 * (k + 1))` encodes into at most `k + 1`
varint bytes. -/
theorem putUvarint_length_le (k : Nat) : ∀ x, x < 2 ^ (7 * (k + 1)) →
    (putUvarint x).length ≤ k + 1 := by
  induction k with
  | zero =>
    intro x hx
    have hp : putUvarint x = [x] := by rw [putUvarint, if_pos (by simpa using hx)]
    simp [hp]
  | succ k ih =>
    intro x hx
    by_cases h : x < 128
    · have hp : putUvarint x = [x] := by rw [putUvarint, if_pos h]
      rw [hp]
      simp only [List.length_cons, List.length_nil]
      omega
    · rw [putUvarint, if_neg h]
      simp only [List.length_cons]
      have hdiv : x / 128 < 2 ^ (7 * (k + 1)) := by
        have hx2 : x < 2 ^ (7 * (k + 1)) * 128 := by
          have he : 2 ^ (7 * (k + 1 + 1)) = 2 ^ (7 * (k + 1)) * 128 := by
            rw [Nat.mul_add, Nat.pow_add]
          rw [← he]
          exact hx
        omega
      have := ih _ hdiv
      omega

/-- Helper: the varint parser decodes an encoded value followed by anything,
for any loop state reachable with at most five encoded bytes. -/
theorem uvarintLoop_putUvarint : ∀ (L : Nat) (r : List Nat) (i x : Nat),
    i + (putUvarint L).length ≤ 5 → x < 2 ^ (7 * i) →
    uvarintLoop (putUvarint L ++ r) x (7 * i) i =
      (x + L * 2 ^ (7 * i), (i : Int) + ((putUvarint L).length : Int)) := by
  intro L
  induction L using Nat.strong_induction_on with
  | _ L ih =>
    intro r i x hlen hx
    by_cases hL : L < 128
    · have hput : putUvarint L = [L] := by rw [putUvarint, if_pos hL]
      rw [hput] at hlen ⊢
      simp only [List.length_cons, List.length_nil] at hlen
      simp only [List.cons_append, List.nil_append, uvarintLoop]
      rw [if_neg (by omega), if_pos hL, if_neg (by omega)]
      have hshl : L <<< (7 * i) = L * 2 ^ (7 * i) := Nat.shiftLeft_eq _ _
      have hp : (2 : Nat) ^ (7 * i) ≤ 2 ^ 28 := Nat.pow_le_pow_right (by norm_num) (by omega)
      have hlt : L * 2 ^ (7 * i) < 2 ^ 36 := by
        have h1 : L * 2 ^ (7 * i) < 128 * 2 ^ 28 := by
          apply Nat.mul_lt_mul_of_lt_of_le hL hp (by norm_num)
        omega
      rw [hshl, Nat.mod_eq_of_lt (lt_trans hlt (by norm_num)),
        or_mul_pow_eq_add _ _ _ hx, Nat.mod_eq_of_lt (by omega)]
      simp
    · have hput : putUvarint L = (L % 128 + 128) :: putUvarint (L / 128) := by
        rw [putUvarint, if_neg hL]
      rw [hput] at hlen ⊢
      simp only [List.length_cons] at hlen
      have hlp := putUvarint_length_pos (L / 128)
      simp only [List.cons_append, uvarintLoop]
      rw [if_neg (by omega), if_neg (by omega)]
      have hm : (L % 128 + 128) % 128 = L % 128 := by omega
      have hshl : (L % 128) <<< (7 * i) = L % 128 * 2 ^ (7 * i) := Nat.shiftLeft_eq _ _
      have hp : (2 : Nat) ^ (7 * i) ≤ 2 ^ 21 := Nat.pow_le_pow_right (by norm_num) (by omega)
      have hlt : L % 128 * 2 ^ (7 * i) < 2 ^ 29 := by
        have h1 : L % 128 * 2 ^ (7 * i) < 128 * 2 ^ 21 := by
          apply Nat.mul_lt_mul_of_lt_of_le (by omega) hp (by norm_num)
        omega
      have he : 2 ^ (7 * (i + 1)) = 2 ^ (7 * i) * 128 := by
        rw [Nat.mul_add, Nat.pow_add]
      have hx1 : x + L % 128 * 2 ^ (7 * i) < 2 ^ (7 * (i + 1)) := by
        have h2 : L % 128 * 2 ^ (7 * i) ≤ 127 * 2 ^ (7 * i) :=
          Nat.mul_le_mul_right _ (by omega)
        have h3 : (0 : Nat) < 2 ^ (7 * i) := Nat.pos_pow_of_pos _ (by norm_num)
        omega
      rw [hm, hshl, Nat.mod_eq_of_lt (lt_trans hlt (by norm_num)),
        or_mul_pow_eq_add _ _ _ hx, Nat.mod_eq_of_lt (by omega)]
      rw [show 7 * i + 7 = 7 * (i + 1) from by omega]
      have hih := ih (L / 128) (by omega) r (i + 1) (x + L % 128 * 2 ^ (7 * i))
        (by omega) hx1
      rw [List.append_eq, hih, Prod.mk.injEq]
      constructor
      · rw [he]
        calc x + L % 128 * 2 ^ (7 * i) + L / 128 * (2 ^ (7 * i) * 128)
            = x + (L % 128 + 128 * (L / 128)) * 2 ^ (7 * i) := by ring
          _ = x + L * 2 ^ (7 * i) := by
              rw [show L % 128 + 128 * (L / 128) = L from by omega]
      · simp only [List.length_cons]
        push_cast
        ring

/-- Helper: `binary.Uvarint` decodes a value encoded in at most five bytes,
regardless of what follows. -/
theorem goUvarint_putUvarint (L : Nat) (r : List Nat)
    (h : (putUvarint L).length ≤ 5) :
    goUvarint (putUvarint L ++ r) = (L, ((putUvarint L).length : Int)) := by
  have := uvarintLoop_putUvarint L r 0 0 (by omega) (by norm_num)
  simpa [goUvarint] using this

/-- Helper: the varint parser reports zero bytes when every byte of the window
carries the continuation bit. -/
theorem uvarintLoop_allCont (buf : List Nat) : ∀ x s i, (∀ b ∈ buf, 128 ≤ b) →
    i + buf.length ≤ 10 → uvarintLoop buf x s i = (0, 0) := by
  induction buf with
  | nil => intro x s i _ _; rfl
  | cons b t ih =>
    intro x s i hb hlen
    simp only [List.length_cons] at hlen
    have hbb : 128 ≤ b := hb b (by simp)
    simp only [uvarintLoop]
    rw [if_neg (by omega), if_neg (by omega)]
    exact ih _ _ _ (fun y hy => hb y (by simp [hy])) (by omega)

/-! ## Helper lemmas: the decode walk of both chunk readers -/

/-- Helper: indexing just past an appended prefix. -/
theorem getD_append_len (l1 l2 : List Nat) (d : Nat) :
    (l1 ++ l2).getD l1.length d = l2.getD 0 d := by
  induction l1 with
  | nil => rfl
  | cons a t ih => simpa using ih

/-- Helper: the local reader's full decode walk over a stored record whose
trailing checksum field is arbitrary: the header is read and parsed, the
record length computed, the full record re-read, and the decode succeeds
exactly when the recomputed CRC-32C over `[encoding byte, payload]` equals
the stored trailing bytes. -/
theorem localChunkAt_rawRecord (pfx sfx payload sum4 : List Nat) (enc : Nat)
    (hL : payload.length < 2 ^ 32) (hsum : sum4.length = 4) :
    localChunkAt (pfx ++ rawRecord enc payload sum4 ++ sfx) pfx.length =
      ([(pfx.length, 5),
        (pfx.length, (putUvarint payload.length).length + 1 + payload.length + 4)],
       if u32be (crc32c (enc :: payload)) = sum4 then .ok (enc, payload)
       else .error "checksum mismatch") := by
  have hv5 : (putUvarint payload.length).length ≤ 5 :=
    putUvarint_length_le 4 _ (by omega)
  have hv1 : 1 ≤ (putUvarint payload.length).length := putUvarint_length_pos _
  have hreclen : (rawRecord enc payload sum4).length
      = (putUvarint payload.length).length + 1 + payload.length + 4 := by
    simp only [rawRecord, List.length_append, List.length_cons, hsum]
    omega
  have hflen : (pfx ++ rawRecord enc payload sum4 ++ sfx).length
      = pfx.length + ((putUvarint payload.length).length + 1 + payload.length + 4)
        + sfx.length := by
    simp only [List.length_append, hreclen]
  have hdrop : (pfx ++ rawRecord enc payload sum4 ++ sfx).drop pfx.length
      = rawRecord enc payload sum4 ++ sfx := by
    rw [List.append_assoc, List.drop_left]
  have hsplit : rawRecord enc payload sum4 ++ sfx
      = putUvarint payload.length ++ ((enc :: (payload ++ sum4)) ++ sfx) := by
    simp [rawRecord]
  have hparse5 : goUvarint (((pfx ++ rawRecord enc payload sum4 ++ sfx).drop
      pfx.length).take 5) = (payload.length, ((putUvarint payload.length).length : Int)) := by
    rw [hdrop, hsplit, List.take_append_eq_append_take, List.take_of_length_le hv5]
    exact goUvarint_putUvarint _ _ hv5
  have hp1 : (goUvarint (((pfx ++ rawRecord enc payload sum4 ++ sfx).drop
      pfx.length).take 5)).1 = payload.length := by rw [hparse5]
  have hp2 : (goUvarint (((pfx ++ rawRecord enc payload sum4 ++ sfx).drop
      pfx.length).take 5)).2 = ((putUvarint payload.length).length : Int) := by
    rw [hparse5]
  have hbuf : ((pfx ++ rawRecord enc payload sum4 ++ sfx).drop pfx.length).take
      ((putUvarint payload.length).length + 1 + payload.length + 4)
      = rawRecord enc payload sum4 := by
    rw [hdrop, ← hreclen, List.take_left]
  have hrecsplit : rawRecord enc payload sum4
      = putUvarint payload.length ++ (enc :: (payload ++ sum4)) := rfl
  have hget : (rawRecord enc payload sum4).getD (putUvarint payload.length).length 0
      = enc := by
    rw [hrecsplit, getD_append_len]
    rfl
  have hdropvl : (rawRecord enc payload sum4).drop (putUvarint payload.length).length
      = enc :: (payload ++ sum4) := by
    rw [hrecsplit]
    exact List.drop_left _ _
  have hcrcarg : ((rawRecord enc payload sum4).drop (putUvarint payload.length).length).take
      (1 + payload.length) = enc :: payload := by
    rw [hdropvl, show 1 + payload.length = payload.length + 1 from by omega,
      List.take_succ_cons, List.take_left]
  have hdropvl1 : (rawRecord enc payload sum4).drop ((putUvarint payload.length).length + 1)
      = payload ++ sum4 := by
    rw [← List.drop_drop, hdropvl, List.drop_succ_cons, List.drop_zero]
  have hpayload : ((rawRecord enc payload sum4).drop
      ((putUvarint payload.length).length + 1)).take payload.length = payload := by
    rw [hdropvl1, List.take_left]
  have hsumx : ((rawRecord enc payload sum4).drop
      ((putUvarint payload.length).length + 1 + payload.length)).take 4 = sum4 := by
    rw [← List.drop_drop, hdropvl1, List.drop_left, List.take_of_length_le (le_of_eq hsum)]
  have hc1 : ¬((pfx ++ rawRecord enc payload sum4 ++ sfx).length < pfx.length + 5) := by
    omega
  have hc2 : ¬(((putUvarint payload.length).length : Int) ≤ 0) := by omega
  have hc3 : ¬((pfx ++ rawRecord enc payload sum4 ++ sfx).length <
      pfx.length + ((putUvarint payload.length).length + 1 + payload.length + 4)) := by
    omega
  simp only [localChunkAt, maxChunkLengthFieldSize, chunkEncodingSize, crc32Size]
  rw [if_neg hc1, hp2, hp1, if_neg hc2, Int.toNat_ofNat, hbuf, hget, hcrcarg,
    hpayload, hsumx, if_neg hc3]
  by_cases hc : u32be (crc32c (enc :: payload)) = sum4 <;> simp [hc]

/-- Helper: the S3 reader's full decode walk over a stored record whose
trailing checksum field is arbitrary: a six-byte header range is fetched and
parsed, the record length computed, the full record range fetched, and the
decode succeeds exactly when the recomputed CRC-32C over
`[encoding byte, payload]` equals the stored trailing bytes. -/
theorem s3ChunkAt_rawRecord (pfx sfx payload sum4 : List Nat) (enc : Nat)
    (hL : payload.length < 2 ^ 32) (hsum : sum4.length = 4) :
    s3ChunkAt (pfx ++ rawRecord enc payload sum4 ++ sfx) pfx.length =
      ([(pfx.length, 6),
        (pfx.length, (putUvarint payload.length).length + 1 + payload.length + 4)],
       if u32be (crc32c (enc :: payload)) = sum4 then .ok (enc, payload)
       else .error "checksum mismatch") := by
  have hv5 : (putUvarint payload.length).length ≤ 5 :=
    putUvarint_length_le 4 _ (by omega)
  have hv1 : 1 ≤ (putUvarint payload.length).length := putUvarint_length_pos _
  have hreclen : (rawRecord enc payload sum4).length
      = (putUvarint payload.length).length + 1 + payload.length + 4 := by
    simp only [rawRecord, List.length_append, List.length_cons, hsum]
    omega
  have hflen : (pfx ++ rawRecord enc payload sum4 ++ sfx).length
      = pfx.length + ((putUvarint payload.length).length + 1 + payload.length + 4)
        + sfx.length := by
    simp only [List.length_append, hreclen]
  have hdrop : (pfx ++ rawRecord enc payload sum4 ++ sfx).drop pfx.length
      = rawRecord enc payload sum4 ++ sfx := by
    rw [List.append_assoc, List.drop_left]
  have hsplit : rawRecord enc payload sum4 ++ sfx
      = putUvarint payload.length ++ ((enc :: (payload ++ sum4)) ++ sfx) := by
    simp [rawRecord]
  have hparse6 : goUvarint (((pfx ++ rawRecord enc payload sum4 ++ sfx).drop
      pfx.length).take 6) = (payload.length, ((putUvarint payload.length).length : Int)) := by
    rw [hdrop, hsplit, List.take_append_eq_append_take,
      List.take_of_length_le (by omega)]
    exact goUvarint_putUvarint _ _ hv5
  have hp1 : (goUvarint (((pfx ++ rawRecord enc payload sum4 ++ sfx).drop
      pfx.length).take 6)).1 = payload.length := by rw [hparse6]
  have hp2 : (goUvarint (((pfx ++ rawRecord enc payload sum4 ++ sfx).drop
      pfx.length).take 6)).2 = ((putUvarint payload.length).length : Int) := by
    rw [hparse6]
  have hhlen : (((pfx ++ rawRecord enc payload sum4 ++ sfx).drop pfx.length).take 6).length
      = 6 := by
    simp only [List.length_take, List.length_drop]
    omega
  have hbuf : ((pfx ++ rawRecord enc payload sum4 ++ sfx).drop pfx.length).take
      ((putUvarint payload.length).length + 1 + payload.length + 4)
      = rawRecord enc payload sum4 := by
    rw [hdrop, ← hreclen, List.take_left]
  have hrecsplit : rawRecord enc payload sum4
      = putUvarint payload.length ++ (enc :: (payload ++ sum4)) := rfl
  have hget : (rawRecord enc payload sum4).getD (putUvarint payload.length).length 0
      = enc := by
    rw [hrecsplit, getD_append_len]
    rfl
  have hdropvl : (rawRecord enc payload sum4).drop (putUvarint payload.length).length
      = enc :: (payload ++ sum4) := by
    rw [hrecsplit]
    exact List.drop_left _ _
  have hcrcarg : ((rawRecord enc payload sum4).drop (putUvarint payload.length).length).take
      (1 + payload.length) = enc :: payload := by
    rw [hdropvl, show 1 + payload.length = payload.length + 1 from by omega,
      List.take_succ_cons, List.take_left]
  have hdropvl1 : (rawRecord enc payload sum4).drop ((putUvarint payload.length).length + 1)
      = payload ++ sum4 := by
    rw [← List.drop_drop, hdropvl, List.drop_succ_cons, List.drop_zero]
  have hpayload : ((rawRecord enc payload sum4).drop
      ((putUvarint payload.length).length + 1)).take payload.length = payload := by
    rw [hdropvl1, List.take_left]
  have hsumx : ((rawRecord enc payload sum4).drop
      ((putUvarint payload.length).length + 1 + payload.length)).take 4 = sum4 := by
    rw [← List.drop_drop, hdropvl1, List.drop_left, List.take_of_length_le (le_of_eq hsum)]
  have hc0 : ¬((pfx ++ rawRecord enc payload sum4 ++ sfx).length ≤ pfx.length) := by
    omega
  have hc2 : ¬(((putUvarint payload.length).length : Int) ≤ 0) := by omega
  simp only [s3ChunkAt, s3RangeFetch, maxChunkLengthFieldSize, chunkEncodingSize,
    crc32Size]
  rw [if_neg hc0, show (5 : Nat) + 1 = 6 from rfl]
  simp only [hp2, hp1, Int.toNat_ofNat, hhlen]
  rw [if_neg (by norm_num : ¬(6 < 5)), if_neg hc2, if_neg hc0]
  simp only [hbuf, hget, hcrcarg, hpayload, hsumx]
  rw [hreclen, if_neg (lt_irrefl _), if_neg (lt_irrefl _)]
  by_cases hc : u32be (crc32c (enc :: payload)) = sum4 <;> simp [hc]

/-! ## Theorems for claims C4, C9, C3 -/

/-- Claim C4: for every well-formed chunk record stored at the given offset,
both readers read exactly `varint_byte_count + 1 + data_length + 4` bytes
starting at the offset (after the fixed-size header read) and return the
stored `(encoding, payload)` pair: decode is a left inverse of encode. -/
theorem c4_record_roundtrip (pfx sfx payload : List Nat) (enc : Nat)
    (henc : enc < 256) (hbytes : ∀ b ∈ payload, b < 256)
    (hL : payload.length < 2 ^ 32) :
    localChunkAt (pfx ++ encodeRecord enc payload ++ sfx) pfx.length =
      ([(pfx.length, 5),
        (pfx.length, (putUvarint payload.length).length + 1 + payload.length + 4)],
       .ok (enc, payload)) ∧
    s3ChunkAt (pfx ++ encodeRecord enc payload ++ sfx) pfx.length =
      ([(pfx.length, 6),
        (pfx.length, (putUvarint payload.length).length + 1 + payload.length + 4)],
       .ok (enc, payload)) := by
  constructor
  · rw [encodeRecord, localChunkAt_rawRecord pfx sfx payload
      (u32be (crc32c (enc :: payload))) enc hL rfl, if_pos rfl]
  · rw [encodeRecord, s3ChunkAt_rawRecord pfx sfx payload
      (u32be (crc32c (enc :: payload))) enc hL rfl, if_pos rfl]

/-- Witness for C4: the record for encoding 1 with payload `[7, 8]`, stored at
offset 2 between junk bytes, decodes back to `(1, [7, 8])` with reads of
5 (resp. 6) header bytes and 8 record bytes. -/
theorem c4_record_roundtrip_witness :
    (localChunkAt ([9, 9] ++ encodeRecord 1 [7, 8] ++ [5]) 2 =
      ([(2, 5), (2, (putUvarint 2).length + 1 + 2 + 4)], .ok (1, [7, 8]))) ∧
    (s3ChunkAt ([9, 9] ++ encodeRecord 1 [7, 8] ++ [5]) 2 =
      ([(2, 6), (2, (putUvarint 2).length + 1 + 2 + 4)], .ok (1, [7, 8]))) ∧
    (putUvarint 2).length + 1 + 2 + 4 = 8 := by
  have h := c4_record_roundtrip [9, 9] [5] [7, 8] 1 (by decide) (by decide) (by decide)
  have hpu : putUvarint 2 = [2] := by
    rw [putUvarint]
    norm_num
  exact ⟨h.1, h.2, by simp [hpu]⟩

/-- Claim C9: when the varint length prefix is malformed — no terminating byte
inside the fixed-size header window — both readers fail with the decode error
"invalid header", and the only read issued is the fixed-size header read: no
byte past the defensive cap is requested. -/
theorem c9_malformed_header (file : List Nat) (off : Nat)
    (hlen : off + 6 ≤ file.length)
    (hcont : ∀ b ∈ (file.drop off).take 6, 128 ≤ b) :
    localChunkAt file off = ([(off, 5)], .error "invalid header") ∧
    s3ChunkAt file off = ([(off, 6)], .error "invalid header") := by
  have h5sub : (file.drop off).take 5 = ((file.drop off).take 6).take 5 := by
    rw [List.take_take, show (5 ⊓ 6 : Nat) = 5 from rfl]
  have hcont5 : ∀ b ∈ (file.drop off).take 5, 128 ≤ b := by
    intro b hb
    rw [h5sub] at hb
    exact hcont b (List.mem_of_mem_take hb)
  have hparse5 : goUvarint ((file.drop off).take 5) = (0, 0) := by
    have hb : ((file.drop off).take 5).length ≤ 5 := by
      simp [List.length_take]
    exact uvarintLoop_allCont _ 0 0 0 hcont5 (by omega)
  have hparse6 : goUvarint ((file.drop off).take 6) = (0, 0) := by
    have hb : ((file.drop off).take 6).length ≤ 6 := by
      simp [List.length_take]
    exact uvarintLoop_allCont _ 0 0 0 hcont (by omega)
  have hh6 : ((file.drop off).take 6).length = 6 := by
    simp only [List.length_take, List.length_drop]
    omega
  constructor
  · simp only [localChunkAt, maxChunkLengthFieldSize, chunkEncodingSize, crc32Size]
    rw [if_neg (by omega), hparse5, if_pos (by norm_num)]
  · simp only [s3ChunkAt, s3RangeFetch, maxChunkLengthFieldSize, chunkEncodingSize,
      crc32Size]
    rw [if_neg (show ¬(file.length ≤ off) from by omega),
      show (5 : Nat) + 1 = 6 from rfl]
    simp only [hh6, hparse6]
    rw [if_neg (by norm_num : ¬(6 < 5)), if_pos (by norm_num)]

/-- Witness for C9: a seven-byte segment whose six bytes at offset 1 all carry
the continuation bit. -/
theorem c9_malformed_header_witness :
    localChunkAt [0, 255, 255, 255, 255, 255, 255] 1 = ([(1, 5)], .error "invalid header") ∧
    s3ChunkAt [0, 255, 255, 255, 255, 255, 255] 1 = ([(1, 6)], .error "invalid header") :=
  c9_malformed_header [0, 255, 255, 255, 255, 255, 255] 1 (by decide) (by decide)

/-- Helper: flipping one bit changes a number. -/
theorem xor_two_pow_ne (b k : Nat) : b ^^^ 2 ^ k ≠ b := by
  intro he
  have h1 := congrArg (fun z => b ^^^ z) he
  simp only [Nat.xor_cancel_left, Nat.xor_self] at h1
  have h2 : 0 < 2 ^ k := Nat.pos_pow_of_pos _ (by norm_num)
  omega

/-- Claim C3: flipping any single bit of the payload bytes or of the trailing
4-byte checksum of a stored chunk record makes both readers fail with the
checksum-mismatch error: the corrupt chunk is never returned as a chunk. -/
theorem c3_bit_flip_detected (pfx sfx payload : List Nat) (enc : Nat)
    (henc : enc < 256) (hbytes : ∀ b ∈ payload, b < 256)
    (hL : payload.length < 2 ^ 32) :
    (∀ j k, j < payload.length → k < 8 →
      (localChunkAt (pfx ++ rawRecord enc
          (payload.set j (payload.getD j 0 ^^^ 2 ^ k))
          (u32be (crc32c (enc :: payload))) ++ sfx) pfx.length).2
        = .error "checksum mismatch" ∧
      (s3ChunkAt (pfx ++ rawRecord enc
          (payload.set j (payload.getD j 0 ^^^ 2 ^ k))
          (u32be (crc32c (enc :: payload))) ++ sfx) pfx.length).2
        = .error "checksum mismatch") ∧
    (∀ j k, j < 4 → k < 8 →
      (localChunkAt (pfx ++ rawRecord enc payload
          ((u32be (crc32c (enc :: payload))).set j
            ((u32be (crc32c (enc :: payload))).getD j 0 ^^^ 2 ^ k)) ++ sfx) pfx.length).2
        = .error "checksum mismatch" ∧
      (s3ChunkAt (pfx ++ rawRecord enc payload
          ((u32be (crc32c (enc :: payload))).set j
            ((u32be (crc32c (enc :: payload))).getD j 0 ^^^ 2 ^ k)) ++ sfx) pfx.length).2
        = .error "checksum mismatch") := by
  constructor
  · intro j k hj hk
    have hlen' : (payload.set j (payload.getD j 0 ^^^ 2 ^ k)).length = payload.length :=
      List.length_set _ _ _
    have hwL := localChunkAt_rawRecord pfx sfx
      (payload.set j (payload.getD j 0 ^^^ 2 ^ k))
      (u32be (crc32c (enc :: payload))) enc (by rw [hlen']; exact hL) rfl
    have hwS := s3ChunkAt_rawRecord pfx sfx
      (payload.set j (payload.getD j 0 ^^^ 2 ^ k))
      (u32be (crc32c (enc :: payload))) enc (by rw [hlen']; exact hL) rfl
    have hyb : payload.getD j 0 < 256 := by
      rw [List.getD_eq_getElem _ _ hj]
      exact hbytes _ (List.getElem_mem hj)
    have hxb : payload.getD j 0 ^^^ 2 ^ k < 256 := by
      have h2k : (2 : Nat) ^ k < 2 ^ 8 := Nat.pow_lt_pow_right (by norm_num) hk
      have := Nat.xor_lt_two_pow (x := payload.getD j 0) (y := 2 ^ k) (n := 8)
        (by omega) (by omega)
      omega
    have hset : payload.set j (payload.getD j 0 ^^^ 2 ^ k)
        = payload.take j ++ (payload.getD j 0 ^^^ 2 ^ k) :: payload.drop (j + 1) := by
      rw [List.set_eq_take_append_cons_drop, if_pos hj]
    have horig : payload = payload.take j ++ payload.getD j 0 :: payload.drop (j + 1) := by
      conv_lhs => rw [← List.take_append_drop j payload]
      congr 1
      rw [List.getD_eq_getElem _ _ hj]
      exact (List.getElem_cons_drop _ _ hj).symm
    have hne : u32be (crc32c (enc :: payload.set j (payload.getD j 0 ^^^ 2 ^ k)))
        ≠ u32be (crc32c (enc :: payload)) := by
      intro he
      have hcrceq := u32be_inj _ _ (crc32c_lt _) (crc32c_lt _) he
      have happ1 : enc :: payload.set j (payload.getD j 0 ^^^ 2 ^ k)
          = (enc :: payload.take j) ++ ((payload.getD j 0 ^^^ 2 ^ k) :: payload.drop (j + 1)) := by
        rw [hset]
        rfl
      have happ2 : enc :: payload
          = (enc :: payload.take j) ++ (payload.getD j 0 :: payload.drop (j + 1)) := by
        conv_lhs => rw [horig]
        rfl
      rw [happ1, happ2] at hcrceq
      exact crc32c_ne_of_byte_ne (enc :: payload.take j) (payload.drop (j + 1))
        (payload.getD j 0 ^^^ 2 ^ k) (payload.getD j 0)
        (fun b hb => hbytes b (List.mem_of_mem_drop hb))
        hxb hyb (xor_two_pow_ne _ _) hcrceq
    constructor
    · rw [hwL]
      exact if_neg hne
    · rw [hwS]
      exact if_neg hne
  · intro j k hj hk
    have hlen4 : ((u32be (crc32c (enc :: payload))).set j
        ((u32be (crc32c (enc :: payload))).getD j 0 ^^^ 2 ^ k)).length = 4 := by
      rw [List.length_set]
      rfl
    have hwL := localChunkAt_rawRecord pfx sfx payload
      ((u32be (crc32c (enc :: payload))).set j
        ((u32be (crc32c (enc :: payload))).getD j 0 ^^^ 2 ^ k)) enc hL hlen4
    have hwS := s3ChunkAt_rawRecord pfx sfx payload
      ((u32be (crc32c (enc :: payload))).set j
        ((u32be (crc32c (enc :: payload))).getD j 0 ^^^ 2 ^ k)) enc hL hlen4
    have hne : u32be (crc32c (enc :: payload))
        ≠ (u32be (crc32c (enc :: payload))).set j
          ((u32be (crc32c (enc :: payload))).getD j 0 ^^^ 2 ^ k) := by
      intro he
      have hju : j < ((u32be (crc32c (enc :: payload))).set j
          ((u32be (crc32c (enc :: payload))).getD j 0 ^^^ 2 ^ k)).length := by
        rw [hlen4]
        exact hj
      have hgd := congrArg (fun l => l.getD j 0) he
      simp only at hgd
      rw [List.getD_eq_getElem _ _ hju, List.getElem_set_self] at hgd
      exact xor_two_pow_ne _ _ hgd.symm
    constructor
    · rw [hwL]
      exact if_neg hne
    · rw [hwS]
      exact if_neg hne

/-- Witness for C3: flipping the lowest bit of the first payload byte, and the
lowest bit of the first checksum byte, of the stored record for `(1, [7, 8])`
both produce the checksum-mismatch error in both readers. -/
theorem c3_bit_flip_detected_witness :
    (localChunkAt ([9, 9] ++ rawRecord 1 (([7, 8] : List Nat).set 0 (7 ^^^ 2 ^ 0))
        (u32be (crc32c [1, 7, 8])) ++ [5]) 2).2 = .error "checksum mismatch" ∧
    (s3ChunkAt ([9, 9] ++ rawRecord 1 [7, 8]
        ((u32be (crc32c [1, 7, 8])).set 0
          ((u32be (crc32c [1, 7, 8])).getD 0 0 ^^^ 2 ^ 0)) ++ [5]) 2).2
      = .error "checksum mismatch" := by
  have h := c3_bit_flip_detected [9, 9] [5] [7, 8] 1 (by decide) (by decide) (by decide)
  exact ⟨(h.1 0 0 (by decide) (by decide)).1, (h.2 0 0 (by decide) (by decide)).2⟩

/-- Witness for C7 at the concrete reference with segment 3 and offset 17:
the segment name is the zero-padded "000003" of length 6. -/
theorem c7_ref_resolution_witness :
    sprintf06 ((3 * 2 ^ 32 + 17) / 2 ^ 32) = "000003" ∧
    (sprintf06 ((3 * 2 ^ 32 + 17) / 2 ^ 32)).length = 6 := by
  have h := c7_ref_resolution (3 * 2 ^ 32 + 17) "p" "d"
  exact ⟨by decide, h.2.2.2.2.2.2 (by decide)⟩
